import Mathlib

/-!
Verification of the API access core of `terraform-provider-itunessearchapi`:
the token-bucket rate limiter (`internal/client/rate_limiter.go`), the
retrying request executor `doRequest`, batch chunking
(`internal/common/chunk.go`), lookup reconciliation
(`internal/client/lookup.go`) and the JSONP body unwrapper.

Modelling conventions:
* Go `float64` quantities (token counts, rates, durations in seconds) are
  modelled as `ℚ`; all comparisons and arithmetic used by the code are
  exact on the values involved.
* Wall-clock time is made explicit: each limiter step receives the elapsed
  seconds since the previous refill (`now.Sub(tb.lastRefillTime)`), so the
  `lastRefillTime` field is replaced by explicit elapsed inputs.
* A Go `context.Context` is modelled by a `Bool` (or `ℕ → Bool`) saying
  whether the context is already cancelled at the given blocking point.
-/

namespace ItunesClient

/-- `common.MaxLookupBatchSize` from `model_types.go`. -/
def MaxLookupBatchSize : ℕ := 200

/-- `common.RateLimitRequests` from `model_types.go`. -/
def RateLimitRequests : ℕ := 20

/-- `common.RateLimitDuration` (one minute), in seconds. -/
def RateLimitDurationSeconds : ℚ := 60

/-- `common.MaxRetries` from `model_types.go`. -/
def MaxRetries : ℕ := 5

/-- `common.MaxRetryWait` (60 seconds), in seconds. -/
def MaxRetryWaitSeconds : ℚ := 60

/-- The mutable state of `tokenBucket` in `rate_limiter.go`, minus the
`lastRefillTime` timestamp (replaced by explicit elapsed-time inputs) and
the mutex (steps are modelled as atomic). -/
structure tokenBucket where
  tokens : ℚ
  maxTokens : ℚ
  refillRate : ℚ
deriving DecidableEq, Repr

/-- `newTokenBucket` from `rate_limiter.go`: full bucket, rate
`RateLimitRequests / RateLimitDuration` tokens per second. -/
def newTokenBucket : tokenBucket :=
  { tokens := (RateLimitRequests : ℚ)
    maxTokens := (RateLimitRequests : ℚ)
    refillRate := (RateLimitRequests : ℚ) / RateLimitDurationSeconds }

/-- The refill computation at the top of each `take` loop iteration:
`tb.tokens += elapsed * tb.refillRate`, capped at `maxTokens`. -/
def tbRefill (tb : tokenBucket) (elapsed : ℚ) : ℚ :=
  let t := tb.tokens + elapsed * tb.refillRate
  if t > tb.maxTokens then tb.maxTokens else t

/-- Outcome of one iteration of the `take` loop: the call returns success,
returns the context's cancellation error, or blocks for `waitDuration`
seconds before iterating again. -/
inductive takeOutcome where
  | success
  | cancelled
  | wait (waitDuration : ℚ)
deriving DecidableEq, Repr

/-- One iteration of the `for` loop in `tokenBucket.take`: refill, then
either consume a token and return `nil`, or compute the shortfall wait.
`ctxDone` is whether the context is already cancelled when the `select`
runs; with an already-closed `ctx.Done()` channel the `select` returns
`ctx.Err()` rather than sleeping. -/
def takeOnce (tb : tokenBucket) (elapsed : ℚ) (ctxDone : Bool) :
    takeOutcome × tokenBucket :=
  let t := tbRefill tb elapsed
  if t ≥ 1 then
    (.success, { tb with tokens := t - 1 })
  else
    let tokensNeeded := 1 - t
    let waitDuration := tokensNeeded / tb.refillRate
    if ctxDone then (.cancelled, { tb with tokens := t })
    else (.wait waitDuration, { tb with tokens := t })

/-- First-iteration outcomes of a sequence of `take` calls, each supplied
with its elapsed time since the previous refill and its context state.
An entry whose outcome is `success`/`cancelled` is a call that returned
immediately; a `wait` outcome is a call that blocked. -/
def takeCalls (tb : tokenBucket) :
    List (ℚ × Bool) → List takeOutcome × tokenBucket
  | [] => ([], tb)
  | (e, c) :: rest =>
    let r := takeOnce tb e c
    let rs := takeCalls r.2 rest
    (r.1 :: rs.1, rs.2)

/-- The bucket states observed after each successive `take` iteration. -/
def takeTrace (tb : tokenBucket) : List (ℚ × Bool) → List tokenBucket
  | [] => []
  | (e, c) :: rest =>
    let tb' := (takeOnce tb e c).2
    tb' :: takeTrace tb' rest

/-- Result of a whole `take` call (looping until success or cancellation). -/
inductive takeResult where
  | ok
  | cancelled
deriving DecidableEq, Repr

/-- The full `take` loop, driven by a schedule of (elapsed, ctxDone) pairs,
one per loop iteration.  `none` means the schedule ran out while the call
was still waiting (the call has not returned within the schedule). -/
def takeLoop (tb : tokenBucket) : List (ℚ × Bool) → Option (takeResult × tokenBucket)
  | [] => none
  | (e, c) :: rest =>
    let r := takeOnce tb e c
    if r.1 = .success then some (.ok, r.2)
    else if r.1 = .cancelled then some (.cancelled, r.2)
    else takeLoop r.2 rest

/-- One HTTP response as seen by `doRequest`.  `retryAfter` models the
`Retry-After` header: `none` = header absent, `some none` = present but
not parseable by `time.ParseDuration(retryAfter + "s")`, `some (some s)`
= present and parsing to `s` seconds. -/
structure goResp where
  code : ℕ
  retryAfter : Option (Option ℚ)
deriving DecidableEq, Repr

/-- Result of `doRequest` in `search_test.go` (the client request
executor).  Each terminal constructor records the number of HTTP attempts
made and the number of retry sleeps performed. -/
inductive doResult where
  | ok (attempts sleeps : ℕ)
  | apiError (code attempts sleeps : ℕ)
  | retriesExceeded (attempts sleeps : ℕ)
  | noValidRetryAfter (attempts sleeps : ℕ)
  | ctxCancelled (attempts sleeps : ℕ)
  | limiterCancelled
  | limiterUndetermined
deriving DecidableEq, Repr

/-- The retry wait: `Retry-After` seconds plus one, capped at
`MaxRetryWait` (timing only; it does not influence control flow). -/
def retryWaitSeconds (s : ℚ) : ℚ :=
  let w := s + 1
  if w > MaxRetryWaitSeconds then MaxRetryWaitSeconds else w

/-- The retry `for` loop of `doRequest`: `server n` is the response to the
`n`-th HTTP attempt (0-based), `ctxDone n` whether the context is already
cancelled when the retry sleep after attempt `n` runs.  Mirrors the source
order: a non-429 status returns (200) or fails (`APIError`); on 429 the
retry counter is incremented and checked against `MaxRetries` first, then
a parseable `Retry-After` leads to a (cancellable) sleep and a retry,
while an absent or unparseable header fails immediately. -/
def doRequestLoop (server : ℕ → goResp) (ctxDone : ℕ → Bool)
    (attempt retryCount sleeps : ℕ) : doResult :=
  let resp := server attempt
  if resp.code ≠ 429 then
    if resp.code ≠ 200 then .apiError resp.code (attempt + 1) sleeps
    else .ok (attempt + 1) sleeps
  else
    let rc := retryCount + 1
    if h : MaxRetries ≤ rc then .retriesExceeded (attempt + 1) sleeps
    else
      match resp.retryAfter with
      | some (some _) =>
        if ctxDone attempt then .ctxCancelled (attempt + 1) sleeps
        else doRequestLoop server ctxDone (attempt + 1) rc (sleeps + 1)
      | some none => .noValidRetryAfter (attempt + 1) sleeps
      | none => .noValidRetryAfter (attempt + 1) sleeps
termination_by MaxRetries - retryCount
decreasing_by simp only [MaxRetries] at *; omega

/-- `doRequest`: acquire one rate-limiter token (the `take` call, driven
by `sched`), then run the retry loop.  The limiter is not touched again
by the loop, so the final bucket state is the post-`take` state. -/
def doRequest (tb : tokenBucket) (sched : List (ℚ × Bool))
    (ctxDone : ℕ → Bool) (server : ℕ → goResp) : doResult × tokenBucket :=
  (takeLoop tb sched).elim (.limiterUndetermined, tb) (fun r =>
    if r.1 = .cancelled then (.limiterCancelled, r.2)
    else (doRequestLoop server ctxDone 0 0 0, r.2))

end ItunesClient

namespace ItunesCommon

/-- `ChunkInt64`/`ChunkStrings` from `internal/common/chunk.go`, generic
in the element type: contiguous batches of at most `batchSize` elements,
in input order.  Defined for `batchSize = 0` as `[]` for totality; the Go
loop diverges there, which is modelled separately by `chunkLoopFuel`. -/
def chunkBatches (batchSize : ℕ) (xs : List α) : List (List α) :=
  if h : xs.isEmpty ∨ batchSize = 0 then []
  else xs.take batchSize :: chunkBatches batchSize (xs.drop batchSize)
termination_by xs.length
decreasing_by
  push_neg at h
  have hx : 0 < xs.length := by
    cases xs with
    | nil => simp at h
    | cons a t => simp
  simp only [List.length_drop]
  omega

/-- `common.ChunkInt64`. -/
def ChunkInt64 (ids : List Int) (batchSize : ℕ) : List (List Int) :=
  chunkBatches batchSize ids

/-- `common.ChunkStrings`. -/
def ChunkStrings (values : List String) (batchSize : ℕ) : List (List String) :=
  chunkBatches batchSize values

/-- Outcome of the chunking loop when run step by step: the slice
expression `ids[i:end]` can panic (when its bounds are invalid), or the
loop finishes with the accumulated batches. -/
inductive chunkOutcome (α : Type) where
  | panicked
  | done (batches : List (List α))
deriving DecidableEq, Repr

/-- Prepend the batch produced by the current iteration to the outcome of
the remaining iterations (a panic further on stays a panic). -/
def chunkOutcome.push (batch : List α) : chunkOutcome α → chunkOutcome α
  | .panicked => .panicked
  | .done rest => .done (batch :: rest)

@[simp]
theorem chunkOutcome_push_panicked (batch : List α) :
    chunkOutcome.push batch .panicked = .panicked := rfl

@[simp]
theorem chunkOutcome_push_done (batch : List α) (rest : List (List α)) :
    chunkOutcome.push batch (.done rest) = .done (batch :: rest) := rfl

/-- Literal step-indexed model of the Go loop
`for i := 0; i < len(ids); i += batchSize` with
`end := min(i+batchSize, len(ids))` and batch `ids[i:end]`, for an
arbitrary (possibly non-positive) `batchSize : ℤ`.  `none` means the
given fuel was exhausted before the loop terminated; Go's slice bounds
check `0 ≤ i ≤ end` failing is `panicked`. -/
def chunkLoopFuel (xs : List α) (batchSize : ℤ) (i : ℤ) :
    ℕ → Option (chunkOutcome α)
  | 0 => none
  | fuel + 1 =>
    if i < (xs.length : ℤ) then
      let endIdx := min (i + batchSize) (xs.length : ℤ)
      if 0 ≤ i ∧ i ≤ endIdx then
        (chunkLoopFuel xs batchSize (i + batchSize) fuel).map
          (chunkOutcome.push ((xs.drop i.toNat).take (endIdx - i).toNat))
      else some .panicked
    else some (.done [])

end ItunesCommon

namespace ItunesClient

/-- Go `unicode.IsSpace` restricted to Latin-1 (the space characters of
`strings.TrimSpace` that can occur in single-byte positions); space
classes above U+00FF are omitted, which none of the claims exercise. -/
def goIsSpace (c : Char) : Bool :=
  c == ' ' || c == '\t' || c == '\n' || c == Char.ofNat 11 ||
    c == Char.ofNat 12 || c == '\r' || c == Char.ofNat 0x85 || c == Char.ofNat 0xA0

/-- `strings.TrimSpace` on a rune list: drop leading and trailing
whitespace. -/
def goTrimSpace (s : List Char) : List Char :=
  ((s.dropWhile goIsSpace).reverse.dropWhile goIsSpace).reverse

/-- `strings.TrimSuffix(s, ";")`: remove one trailing semicolon when
present. -/
def goTrimSuffixSemi (s : List Char) : List Char :=
  if s.getLast? = some ';' then s.dropLast else s

/-- `unwrapJSONPBody` from the client: trim whitespace and one trailing
semicolon, require the `callback(` front marker and `)` end marker, and
return the interior `trimmed[len(callback)+1 : len(trimmed)-1]`. -/
def unwrapJSONPBody (body : List Char) (callback : List Char) :
    Except String (List Char) :=
  let trimmed := goTrimSuffixSemi (goTrimSpace body)
  let front := callback ++ ['(']
  if front.isPrefixOf trimmed && [')'].isSuffixOf trimmed then
    .ok ((trimmed.drop front.length).dropLast)
  else
    .error "unexpected JSONP response format"

/-- `ContentResult` from the client package, field for field (Go
`float64` fields as `ℚ`); defaults are the Go zero values. -/
structure ContentResult where
  TrackName : String := ""
  BundleID : String := ""
  TrackID : Int := 0
  SellerName : String := ""
  Kind : String := ""
  Description : String := ""
  ReleaseDate : String := ""
  Price : ℚ := 0
  FormattedPrice : String := ""
  Currency : String := ""
  Version : String := ""
  PrimaryGenre : String := ""
  MinimumOSVersion : String := ""
  FileSizeBytes : String := ""
  ArtistViewURL : String := ""
  ArtworkURL : String := ""
  TrackViewURL : String := ""
  SupportedDevices : List String := []
  Genres : List String := []
  Languages : List String := []
  AverageRating : ℚ := 0
  RatingCount : Int := 0
deriving DecidableEq, Repr

/-- The decoded `{"results": [...]}` envelope. -/
structure ContentResponse where
  Results : List ContentResult
deriving DecidableEq, Repr

/-- `NotFoundError` from the client package. -/
structure NotFoundError where
  MissingIDs : List Int := []
  MissingURLs : List String := []
deriving DecidableEq, Repr

/-- The reconciliation tail of `Client.Lookup` (`lookup.go` lines 82-102),
run on the decoded response: when the request carried no `IDs` the result
is returned as-is; otherwise the set of `TrackID`s present in the results
is collected (`foundIDs`), every requested ID absent from it is recorded
missing in request order, and a non-empty missing list is returned as a
`NotFoundError` alongside the full result. -/
def lookupReconcile (reqIDs : List Int) (result : ContentResponse) :
    ContentResponse × Option NotFoundError :=
  if reqIDs.isEmpty then (result, none)
  else
    let foundIDs := result.Results.map (fun item => item.TrackID)
    let missingIDs := reqIDs.filter (fun id => !(foundIDs.contains id))
    if missingIDs.isEmpty then (result, none)
    else (result, some { MissingIDs := missingIDs, MissingURLs := [] })

end ItunesClient

namespace ItunesClient

/-- The constructed bucket, with the refill rate evaluated. -/
theorem newTokenBucket_eq :
    newTokenBucket = { tokens := 20, maxTokens := 20, refillRate := 1/3 } := by
  norm_num [newTokenBucket, RateLimitRequests, RateLimitDurationSeconds]

/-- One `take` iteration keeps the tokens within `[0, maxTokens]` and
leaves `maxTokens` and `refillRate` unchanged. -/
theorem takeOnce_bounds (tb : tokenBucket) (e : ℚ) (c : Bool)
    (hr : 0 ≤ tb.refillRate) (he : 0 ≤ e)
    (h0 : 0 ≤ tb.tokens) (h1 : tb.tokens ≤ tb.maxTokens) :
    (0 ≤ ((takeOnce tb e c).2).tokens ∧
      ((takeOnce tb e c).2).tokens ≤ ((takeOnce tb e c).2).maxTokens) ∧
    ((takeOnce tb e c).2).maxTokens = tb.maxTokens ∧
    ((takeOnce tb e c).2).refillRate = tb.refillRate := by
  have hmul : 0 ≤ e * tb.refillRate := mul_nonneg he hr
  have hre : 0 ≤ tbRefill tb e ∧ tbRefill tb e ≤ tb.maxTokens := by
    simp only [tbRefill]
    rcases lt_or_le tb.maxTokens (tb.tokens + e * tb.refillRate) with hc | hc
    · rw [if_pos hc]
      exact ⟨by linarith, le_refl _⟩
    · rw [if_neg (not_lt.mpr hc)]
      exact ⟨by linarith, hc⟩
  simp only [takeOnce, ge_iff_le]
  rcases le_or_lt 1 (tbRefill tb e) with hge | hlt
  · rw [if_pos hge]
    refine ⟨⟨?_, ?_⟩, ?_, ?_⟩ <;> simp <;> linarith [hre.1, hre.2]
  · rw [if_neg (not_le.mpr hlt)]
    cases c <;> refine ⟨⟨?_, ?_⟩, ?_, ?_⟩ <;> simp <;> linarith [hre.1, hre.2]

/-- C6: across any sequence of `take` iterations with nonnegative elapsed
times, every observed bucket state satisfies `0 ≤ tokens ≤ maxTokens`. -/
theorem limiter_invariant_spec (tb : tokenBucket) (steps : List (ℚ × Bool))
    (hr : 0 ≤ tb.refillRate) (h0 : 0 ≤ tb.tokens) (h1 : tb.tokens ≤ tb.maxTokens)
    (hsteps : ∀ p ∈ steps, 0 ≤ p.1) :
    ∀ u ∈ takeTrace tb steps, 0 ≤ u.tokens ∧ u.tokens ≤ u.maxTokens := by
  induction steps generalizing tb with
  | nil => simp [takeTrace]
  | cons p rest ih =>
    obtain ⟨e, c⟩ := p
    have he : 0 ≤ e := hsteps (e, c) (by simp)
    have hstep := takeOnce_bounds tb e c hr he h0 h1
    intro u hu
    simp only [takeTrace, List.mem_cons] at hu
    rcases hu with rfl | hu
    · exact hstep.1
    · exact ih ((takeOnce tb e c).2)
        (hstep.2.2 ▸ hr)
        hstep.1.1
        hstep.1.2
        (fun q hq => hsteps q (by simp [hq])) u hu

/-- C6 witness: the invariant instantiated on the freshly constructed
bucket after one immediate `take`. -/
theorem limiter_invariant_spec_witness :
    0 ≤ ((takeOnce newTokenBucket 0 false).2).tokens ∧
      ((takeOnce newTokenBucket 0 false).2).tokens ≤
        ((takeOnce newTokenBucket 0 false).2).maxTokens :=
  limiter_invariant_spec newTokenBucket [((0:ℚ), false)]
    (by norm_num [newTokenBucket, RateLimitRequests, RateLimitDurationSeconds])
    (by norm_num [newTokenBucket, RateLimitRequests])
    (by norm_num [newTokenBucket, RateLimitRequests])
    (by simp)
    ((takeOnce newTokenBucket 0 false).2) (by simp [takeTrace])

/-- C5: immediately after construction (all elapsed times zero), the first
`maxTokens = 20` `take` calls return success without blocking, and the
21st call enters the wait branch (blocking for 3 seconds, the time to
accumulate one token at 1/3 token per second). -/
theorem limiter_capacity_spec :
    (takeCalls newTokenBucket (List.replicate 21 ((0:ℚ), false))).1 =
      List.replicate 20 takeOutcome.success ++ [takeOutcome.wait 3] ∧
    newTokenBucket.maxTokens = 20 := by
  constructor
  · norm_num [takeCalls, takeOnce, tbRefill, newTokenBucket, RateLimitRequests,
      RateLimitDurationSeconds, List.replicate]
  · norm_num [newTokenBucket, RateLimitRequests]

/-- C2 counterexample: with a full bucket, a `take` call whose context is
already cancelled still returns success — the cancellation check sits in
the wait branch only, so "never returns success" fails. -/
theorem take_cancelled_context_counterexample :
    (takeOnce newTokenBucket 0 true).1 = takeOutcome.success := by
  norm_num [takeOnce, tbRefill, newTokenBucket, RateLimitRequests,
    RateLimitDurationSeconds]

/-- C2 (amended): a `take` call on an already-cancelled context never
blocks: it returns immediately, with success when the refilled token
count allows it and with the cancellation error otherwise. -/
theorem take_cancelled_context_amended (tb : tokenBucket) (elapsed : ℚ) :
    (takeOnce tb elapsed true).1 =
      if 1 ≤ tbRefill tb elapsed then takeOutcome.success
      else takeOutcome.cancelled := by
  simp only [takeOnce, ge_iff_le]
  split <;> simp

/-- The single `take` of a fresh bucket with no elapsed time: immediate
success, leaving 19 tokens. -/
theorem takeLoop_fresh :
    takeLoop newTokenBucket [((0:ℚ), false)] =
      some (takeResult.ok, { tokens := 19, maxTokens := 20, refillRate := 1/3 }) := by
  norm_num [takeLoop, takeOnce, tbRefill, newTokenBucket, RateLimitRequests,
    RateLimitDurationSeconds]

/-- Unrolling of the retry loop against a server that always answers 429
with a parseable `Retry-After`: with `n` permitted increments left on the
retry counter, the loop makes `n` more attempts, sleeps `n - 1` more
times, and fails with the retry-exhaustion error. -/
theorem doRequestLoop_429_all (server : ℕ → goResp) (ctxDone : ℕ → Bool)
    (h429 : ∀ n, (server n).code = 429)
    (hra : ∀ n, ∃ s, (server n).retryAfter = some (some s))
    (hctx : ∀ n, ctxDone n = false) :
    ∀ n attempt retryCount sleeps, retryCount + n = MaxRetries → 1 ≤ n →
      doRequestLoop server ctxDone attempt retryCount sleeps =
        .retriesExceeded (attempt + n) (sleeps + n - 1) := by
  intro n
  induction n with
  | zero => exact fun a rc s hsum hn => absurd hn (by norm_num)
  | succ m ih =>
    intro attempt rc s hsum hn
    obtain ⟨ra, hras⟩ := hra attempt
    rw [doRequestLoop]
    simp only [h429 attempt, hras, hctx attempt]
    norm_num
    rcases Nat.eq_zero_or_pos m with rfl | hm
    · have hc : MaxRetries ≤ rc + 1 := by omega
      rw [if_pos hc]
      norm_num
    · have hc : ¬ MaxRetries ≤ rc + 1 := by omega
      rw [if_neg hc]
      rw [ih (attempt + 1) (rc + 1) (s + 1) (by omega) hm]
      congr 1 <;> omega

/-- C3: with a fresh client and a server answering every attempt with 429
and a parseable `Retry-After`, `doRequest` performs exactly
`MaxRetries = 5` HTTP attempts with 4 sleeps in between, fails with the
retry-exhaustion error, and never returns a response. -/
theorem retry_exhaustion_spec (server : ℕ → goResp) (ctxDone : ℕ → Bool)
    (h429 : ∀ n, (server n).code = 429)
    (hra : ∀ n, ∃ s, (server n).retryAfter = some (some s))
    (hctx : ∀ n, ctxDone n = false) :
    (doRequest newTokenBucket [((0:ℚ), false)] ctxDone server).1 =
      doResult.retriesExceeded MaxRetries (MaxRetries - 1) ∧
    MaxRetries = 5 ∧
    ∀ a s, (doRequest newTokenBucket [((0:ℚ), false)] ctxDone server).1 ≠
      doResult.ok a s := by
  have hloop := doRequestLoop_429_all server ctxDone h429 hra hctx
    MaxRetries 0 0 0 (by norm_num) (by norm_num [MaxRetries])
  have hmain : (doRequest newTokenBucket [((0:ℚ), false)] ctxDone server).1 =
      doResult.retriesExceeded MaxRetries (MaxRetries - 1) := by
    rw [doRequest, takeLoop_fresh]
    simp only [Option.elim]
    rw [if_neg (by simp)]
    simpa using hloop
  refine ⟨hmain, rfl, fun a s => ?_⟩
  rw [hmain]
  simp

/-- C3 witness: the concrete always-429 server. -/
theorem retry_exhaustion_spec_witness :
    (doRequest newTokenBucket [((0:ℚ), false)] (fun _ => false)
      (fun _ => { code := 429, retryAfter := some (some 0) })).1 =
      doResult.retriesExceeded MaxRetries (MaxRetries - 1) :=
  (retry_exhaustion_spec (fun _ => { code := 429, retryAfter := some (some 0) })
    (fun _ => false) (fun _ => rfl) (fun _ => ⟨0, rfl⟩) (fun _ => rfl)).1

/-- C4: a first response of 429 with an absent or unparseable
`Retry-After` header makes `doRequest` fail immediately with the distinct
no-valid-`Retry-After` error after exactly 1 HTTP attempt and 0 sleeps. -/
theorem no_retry_guidance_spec (server : ℕ → goResp) (ctxDone : ℕ → Bool)
    (hcode : (server 0).code = 429)
    (hra : (server 0).retryAfter = none ∨ (server 0).retryAfter = some none) :
    (doRequest newTokenBucket [((0:ℚ), false)] ctxDone server).1 =
      doResult.noValidRetryAfter 1 0 := by
  rw [doRequest, takeLoop_fresh]
  simp only [Option.elim]
  rw [if_neg (by simp)]
  rw [doRequestLoop]
  rcases hra with h | h <;> simp [hcode, h, MaxRetries]

/-- C4 witness: a 429 response carrying no `Retry-After` header at all. -/
theorem no_retry_guidance_spec_witness :
    (doRequest newTokenBucket [((0:ℚ), false)] (fun _ => false)
      (fun _ => { code := 429, retryAfter := none })).1 =
      doResult.noValidRetryAfter 1 0 :=
  no_retry_guidance_spec (fun _ => { code := 429, retryAfter := none })
    (fun _ => false) rfl (Or.inl rfl)

/-- C9: `doRequest` consumes the limiter exactly once, before the first
HTTP attempt: whatever the server and context do, the final limiter state
is the post-`take` state (the retry loop never touches the bucket), and a
single `take` iteration removes exactly one token on success and none
otherwise. -/
theorem single_take_frame_spec (tb : tokenBucket) (sched : List (ℚ × Bool))
    (ctxDone : ℕ → Bool) (server : ℕ → goResp) (r : takeResult) (tb' : tokenBucket)
    (h : takeLoop tb sched = some (r, tb')) :
    (doRequest tb sched ctxDone server).2 = tb' ∧
    (∀ ctxDone2 server2, (doRequest tb sched ctxDone2 server2).2 = tb') ∧
    (∀ e c, ((takeOnce tb e c).1 = takeOutcome.success →
        ((takeOnce tb e c).2).tokens = tbRefill tb e - 1) ∧
      ((takeOnce tb e c).1 ≠ takeOutcome.success →
        ((takeOnce tb e c).2).tokens = tbRefill tb e)) := by
  have hframe : ∀ (cd : ℕ → Bool) (sv : ℕ → goResp),
      (doRequest tb sched cd sv).2 = tb' := by
    intro cd sv
    rw [doRequest, h]
    simp only [Option.elim]
    split <;> rfl
  refine ⟨hframe ctxDone server, hframe, fun e c => ?_⟩
  simp only [takeOnce, ge_iff_le]
  rcases le_or_lt 1 (tbRefill tb e) with hge | hlt
  · rw [if_pos hge]
    exact ⟨fun _ => rfl, fun hne => absurd rfl hne⟩
  · rw [if_neg (not_le.mpr hlt)]
    cases c <;> simp

/-- C9 witness: the frame property on the fresh bucket with a trivial
server. -/
theorem single_take_frame_spec_witness :
    (doRequest newTokenBucket [((0:ℚ), false)] (fun _ => false)
      (fun _ => { code := 200, retryAfter := none })).2 =
      { tokens := 19, maxTokens := 20, refillRate := 1/3 } :=
  (single_take_frame_spec newTokenBucket [((0:ℚ), false)] (fun _ => false)
    (fun _ => { code := 200, retryAfter := none }) takeResult.ok
    { tokens := 19, maxTokens := 20, refillRate := 1/3 } takeLoop_fresh).1

end ItunesClient

namespace ItunesCommon

theorem chunkBatches_nil (b : ℕ) : chunkBatches b ([] : List α) = [] := by
  rw [chunkBatches]
  simp

theorem chunkBatches_cons (b : ℕ) (hb : b ≠ 0) (xs : List α) (hxs : xs ≠ []) :
    chunkBatches b xs = xs.take b :: chunkBatches b (xs.drop b) := by
  rw [chunkBatches]
  rw [dif_neg]
  simp [List.isEmpty_iff, hxs, hb]

/-- The three shape facts about `chunkBatches` for a positive batch size,
proved together by strong induction on the list length: concatenating the
chunks gives back the list, there are `⌈length / b⌉` chunks, and every
chunk has at most `b` elements. -/
theorem chunkBatches_props (b : ℕ) (hb : b ≠ 0) :
    ∀ (n : ℕ) (xs : List α), xs.length ≤ n →
      (chunkBatches b xs).flatten = xs ∧
      (chunkBatches b xs).length = (xs.length + b - 1) / b ∧
      ∀ c ∈ chunkBatches b xs, c.length ≤ b := by
  intro n
  induction n with
  | zero =>
    intro xs hlen
    have hxs : xs = [] := List.eq_nil_of_length_eq_zero (by omega)
    subst hxs
    refine ⟨by simp [chunkBatches_nil], ?_, by simp [chunkBatches_nil]⟩
    rw [chunkBatches_nil]
    have : b - 1 < b := by omega
    simp [Nat.div_eq_of_lt this]
  | succ n ih =>
    intro xs hlen
    rcases eq_or_ne xs [] with rfl | hxs
    · refine ⟨by simp [chunkBatches_nil], ?_, by simp [chunkBatches_nil]⟩
      rw [chunkBatches_nil]
      have : b - 1 < b := by omega
      simp [Nat.div_eq_of_lt this]
    · have hL : 1 ≤ xs.length := by
        have := List.length_pos.mpr hxs
        omega
      have hdroplen : (xs.drop b).length = xs.length - b := List.length_drop b xs
      have hih := ih (xs.drop b) (by omega)
      rw [chunkBatches_cons b hb xs hxs]
      refine ⟨?_, ?_, ?_⟩
      · simp only [List.flatten_cons, hih.1]
        exact List.take_append_drop b xs
      · simp only [List.length_cons, hih.2.1, hdroplen]
        rcases le_or_lt xs.length b with hcase | hcase
        · have h1 : xs.length - b = 0 := by omega
          have h2 : xs.length + b - 1 = (xs.length - 1) + b := by omega
          rw [h1, h2, Nat.add_div_right _ (by omega), Nat.div_eq_of_lt (by omega),
            Nat.div_eq_of_lt (by omega)]
        · have h2 : xs.length + b - 1 = ((xs.length - b) + b - 1) + b := by omega
          rw [h2, Nat.add_div_right _ (by omega)]
      · intro c hc
        rcases List.mem_cons.mp hc with rfl | hc
        · calc (xs.take b).length = min b xs.length := List.length_take b xs
            _ ≤ b := min_le_left _ _
        · exact hih.2.2 c hc

/-- C7: for a batch size `B ≥ 1`, both chunking functions produce exactly
`⌈N / B⌉ = (N + B - 1) / B` contiguous chunks of length at most `B` whose
concatenation is the original list, and the empty list yields no
chunks. -/
theorem chunk_round_trip_spec (b : ℕ) (hb : 1 ≤ b)
    (ids : List Int) (values : List String) :
    (ChunkInt64 ids b).flatten = ids ∧
    (ChunkInt64 ids b).length = (ids.length + b - 1) / b ∧
    (∀ c ∈ ChunkInt64 ids b, c.length ≤ b) ∧
    ChunkInt64 [] b = [] ∧
    (ChunkStrings values b).flatten = values ∧
    (ChunkStrings values b).length = (values.length + b - 1) / b ∧
    (∀ c ∈ ChunkStrings values b, c.length ≤ b) ∧
    ChunkStrings [] b = [] := by
  have hids := chunkBatches_props b (by omega) ids.length ids le_rfl
  have hvals := chunkBatches_props b (by omega) values.length values le_rfl
  exact ⟨hids.1, hids.2.1, hids.2.2, chunkBatches_nil b,
    hvals.1, hvals.2.1, hvals.2.2, chunkBatches_nil b⟩

/-- C7 witness: three identifiers in batches of two. -/
theorem chunk_round_trip_spec_witness :
    (ChunkInt64 [1, 2, 3] 2).flatten = [1, 2, 3] :=
  (chunk_round_trip_spec 2 (by norm_num) [1, 2, 3] ["a", "b", "c"]).1

/-- For a positive batch size the step-indexed loop model terminates
within `length + 1` iterations and computes `chunkBatches`: from loop
index `i`, with enough fuel, the outcome is the chunking of the remaining
suffix. -/
theorem chunkLoopFuel_done (b : ℤ) (hb : 1 ≤ b) :
    ∀ (fuel : ℕ) (xs : List α) (i : ℕ), xs.length - i < fuel →
      chunkLoopFuel xs b (i : ℤ) fuel =
        some (.done (chunkBatches b.toNat (xs.drop i))) := by
  intro fuel
  induction fuel with
  | zero =>
    intro xs i hfuel
    exact absurd hfuel (by omega)
  | succ f ih =>
    intro xs i hfuel
    rw [chunkLoopFuel]
    by_cases hi : (i : ℤ) < (xs.length : ℤ)
    · rw [if_pos hi, if_pos ⟨by positivity, by omega⟩]
      have hcast : (i : ℤ) + b = ((i + b.toNat : ℕ) : ℤ) := by
        push_cast
        omega
      rw [hcast, ih xs (i + b.toNat) (by omega)]
      have hdrop2 : (xs.drop i).drop b.toNat = xs.drop (i + b.toNat) := by
        rw [List.drop_drop]
      have hne : xs.drop i ≠ [] := by
        have hlen : (xs.drop i).length = xs.length - i := List.length_drop i xs
        intro hcon
        rw [hcon] at hlen
        simp at hlen
        omega
      rw [chunkBatches_cons b.toNat (by omega) (xs.drop i) hne, hdrop2]
      have hslice : (xs.drop (i : ℤ).toNat).take
            ((min (((i + b.toNat : ℕ) : ℤ)) (xs.length : ℤ) - i).toNat) =
          (xs.drop i).take b.toNat := by
        have htn : ((i : ℤ)).toNat = i := Int.toNat_natCast i
        rw [htn, List.take_eq_take]
        have hlen : (xs.drop i).length = xs.length - i := List.length_drop i xs
        rw [hlen]
        omega
      rw [Option.map_some', hslice, chunkOutcome_push_done]
    · rw [if_neg hi]
      have hdrop : xs.drop i = [] := List.drop_eq_nil_of_le (by omega)
      rw [hdrop, chunkBatches_nil]

/-- With batch size 0 and a non-empty list the loop never terminates: no
amount of fuel produces an outcome (the index never advances). -/
theorem chunkLoopFuel_zero_none (xs : List α) (hxs : xs ≠ []) :
    ∀ fuel, chunkLoopFuel xs 0 0 fuel = none := by
  intro fuel
  induction fuel with
  | zero => rfl
  | succ f ih =>
    rw [chunkLoopFuel]
    have hlen : 0 < xs.length := List.length_pos.mpr hxs
    rw [if_pos (by exact_mod_cast hlen)]
    rw [if_pos ⟨le_refl 0, by simp⟩]
    simp only [add_zero, ih, Option.map_none']

/-- With a negative batch size and a non-empty list the very first slice
`ids[0:end]` has `end < 0` and panics. -/
theorem chunkLoopFuel_neg_panics (b : ℤ) (hb : b < 0) (xs : List α) (hxs : xs ≠ []) :
    ∀ fuel, 1 ≤ fuel → chunkLoopFuel xs b 0 fuel = some .panicked := by
  intro fuel hfuel
  obtain ⟨f, rfl⟩ : ∃ f, fuel = f + 1 := ⟨fuel - 1, by omega⟩
  rw [chunkLoopFuel]
  have hlen : 0 < xs.length := List.length_pos.mpr hxs
  rw [if_pos (by exact_mod_cast hlen)]
  rw [if_neg]
  intro hcon
  have := hcon.2
  simp only [zero_add] at this
  have hmin : min b (xs.length : ℤ) = b := min_eq_left (by omega)
  rw [hmin] at this
  omega

/-- C10 counterexample: for `batchSize = -1 ≤ 0` and the non-empty list
`[0]`, the loop *does* terminate — with a slice-bounds panic on the first
iteration — refuting "the loop never terminates for batchSize ≤ 0". -/
theorem chunk_nonpositive_counterexample :
    chunkLoopFuel [(0 : Int)] (-1) 0 1 = some chunkOutcome.panicked := by
  decide

/-- C10 (amended): for `batchSize ≥ 1` both chunking loops terminate on
every input (within `length + 1` iterations, computing the chunking);
for `batchSize = 0` and a non-empty input the loop never terminates; for
`batchSize < 0` and a non-empty input the loop terminates at once with a
slice-bounds panic instead of diverging. -/
theorem chunk_termination_amended (b : ℤ) (ids : List Int) (values : List String) :
    (1 ≤ b →
      chunkLoopFuel ids b 0 (ids.length + 1) =
        some (.done (ChunkInt64 ids b.toNat)) ∧
      chunkLoopFuel values b 0 (values.length + 1) =
        some (.done (ChunkStrings values b.toNat))) ∧
    (ids ≠ [] → ∀ fuel, chunkLoopFuel ids 0 0 fuel = none) ∧
    (values ≠ [] → ∀ fuel, chunkLoopFuel values 0 0 fuel = none) ∧
    (b < 0 → ids ≠ [] → ∀ fuel, 1 ≤ fuel →
      chunkLoopFuel ids b 0 fuel = some .panicked) ∧
    (b < 0 → values ≠ [] → ∀ fuel, 1 ≤ fuel →
      chunkLoopFuel values b 0 fuel = some .panicked) := by
  refine ⟨fun hb => ⟨?_, ?_⟩, chunkLoopFuel_zero_none ids,
    chunkLoopFuel_zero_none values,
    fun hneg hne => chunkLoopFuel_neg_panics b hneg ids hne,
    fun hneg hne => chunkLoopFuel_neg_panics b hneg values hne⟩
  · have := chunkLoopFuel_done b hb (ids.length + 1) ids 0 (by omega)
    simpa [ChunkInt64] using this
  · have := chunkLoopFuel_done b hb (values.length + 1) values 0 (by omega)
    simpa [ChunkStrings] using this

/-- C10 witness: batch size one on a singleton list terminates with the
expected single chunk. -/
theorem chunk_termination_amended_witness :
    chunkLoopFuel [(7 : Int)] 1 0 2 =
      some (chunkOutcome.done (ChunkInt64 [7] (Int.toNat 1))) :=
  ((chunk_termination_amended 1 [7] ["a"]).1 (by norm_num)).1

end ItunesCommon

namespace ItunesClient

/-- Membership in the missing-ID list built by the reconciliation: the
requested IDs whose `TrackID` is absent from the results. -/
theorem lookupReconcile_missing_mem (reqIDs : List Int) (resp : ContentResponse) :
    ∀ i, i ∈ reqIDs.filter
        (fun j => !((resp.Results.map (fun item => item.TrackID)).contains j)) ↔
      i ∈ reqIDs ∧ ∀ r ∈ resp.Results, r.TrackID ≠ i := by
  intro i
  have hcont : ((resp.Results.map (fun item => item.TrackID)).contains i) = true ↔
      ∃ r ∈ resp.Results, r.TrackID = i := by
    simp [List.contains, List.elem_iff, List.mem_map]
  rw [List.mem_filter]
  constructor
  · rintro ⟨hmem, hnot⟩
    refine ⟨hmem, fun r hr hcon => ?_⟩
    have hc : ((resp.Results.map (fun item => item.TrackID)).contains i) = true :=
      hcont.mpr ⟨r, hr, hcon⟩
    rw [hc] at hnot
    simp at hnot
  · rintro ⟨hmem, hnone⟩
    refine ⟨hmem, ?_⟩
    have hc : ¬(((resp.Results.map (fun item => item.TrackID)).contains i) = true) := by
      rw [hcont]
      rintro ⟨r, hr, hid⟩
      exact hnone r hr hid
    simp [hc]
    exact fun r hr => hnone r hr

/-- C1: for a non-empty requested ID list, the reconciliation returns the
full decoded response unchanged; the error is `nil` exactly when every
requested ID occurs as a `TrackID` of some result; otherwise the error is
a `NotFoundError` whose `MissingIDs` are exactly the requested IDs with
no matching result (and no missing URLs).  On IDs `[1,2,3]` against
results with TrackIDs `{1,3}` this gives both results back along with
`NotFoundError{MissingIDs:[2]}`. -/
theorem lookup_reconciliation_spec (reqIDs : List Int) (resp : ContentResponse)
    (h : reqIDs ≠ []) :
    (lookupReconcile reqIDs resp).1 = resp ∧
    ((lookupReconcile reqIDs resp).2 = none ↔
      ∀ i ∈ reqIDs, ∃ r ∈ resp.Results, r.TrackID = i) ∧
    (∀ e, (lookupReconcile reqIDs resp).2 = some e →
      e.MissingURLs = [] ∧
      ∀ i, i ∈ e.MissingIDs ↔
        i ∈ reqIDs ∧ ∀ r ∈ resp.Results, r.TrackID ≠ i) ∧
    lookupReconcile [1, 2, 3]
        { Results := [{ TrackID := 1 }, { TrackID := 3 }] } =
      ({ Results := [{ TrackID := 1 }, { TrackID := 3 }] },
        some { MissingIDs := [2], MissingURLs := [] }) := by
  have hne : ¬(reqIDs.isEmpty = true) := by simp [List.isEmpty_iff, h]
  have hmem := lookupReconcile_missing_mem reqIDs resp
  refine ⟨?_, ?_, ?_, ?_⟩
  · simp only [lookupReconcile]
    rw [if_neg hne]
    split <;> rfl
  · simp only [lookupReconcile]
    rw [if_neg hne]
    by_cases hm : reqIDs.filter
        (fun j => !((resp.Results.map (fun item => item.TrackID)).contains j)) = []
    · have hemp : (reqIDs.filter
          (fun j => !((resp.Results.map
            (fun item => item.TrackID)).contains j))).isEmpty = true := by
        rw [List.isEmpty_iff]
        exact hm
      rw [if_pos hemp]
      constructor
      · intro _ i hi
        by_contra hcon
        push_neg at hcon
        have hin : i ∈ reqIDs.filter
            (fun j => !((resp.Results.map (fun item => item.TrackID)).contains j)) :=
          (hmem i).mpr ⟨hi, fun r hr => hcon r hr⟩
        rw [hm] at hin
        simp at hin
      · intro _
        rfl
    · have hemp : ¬((reqIDs.filter
          (fun j => !((resp.Results.map
            (fun item => item.TrackID)).contains j))).isEmpty = true) := by
        rw [List.isEmpty_iff]
        exact hm
      rw [if_neg hemp]
      constructor
      · intro hcon
        exact absurd hcon (by simp)
      · intro hall
        exfalso
        obtain ⟨i, hi⟩ := List.exists_mem_of_ne_nil _ hm
        obtain ⟨hreq, hnone⟩ := (hmem i).mp hi
        obtain ⟨r, hr, hid⟩ := hall i hreq
        exact hnone r hr hid
  · intro e he
    simp only [lookupReconcile] at he
    rw [if_neg hne] at he
    by_cases hm : reqIDs.filter
        (fun j => !((resp.Results.map (fun item => item.TrackID)).contains j)) = []
    · have hemp : (reqIDs.filter
          (fun j => !((resp.Results.map
            (fun item => item.TrackID)).contains j))).isEmpty = true := by
        rw [List.isEmpty_iff]
        exact hm
      rw [if_pos hemp] at he
      exact absurd he (by simp)
    · have hemp : ¬((reqIDs.filter
          (fun j => !((resp.Results.map
            (fun item => item.TrackID)).contains j))).isEmpty = true) := by
        rw [List.isEmpty_iff]
        exact hm
      rw [if_neg hemp] at he
      have he' : (⟨reqIDs.filter
            (fun j => !((resp.Results.map (fun item => item.TrackID)).contains j)),
          ([] : List String)⟩ : NotFoundError) = e :=
        Option.some.inj he
      subst he'
      exact ⟨rfl, fun i => hmem i⟩
  · decide

/-- C1 witness: the `{1,2,3}` versus `{1,3}` instance. -/
theorem lookup_reconciliation_spec_witness :
    (lookupReconcile [1, 2, 3]
      { Results := [{ TrackID := 1 }, { TrackID := 3 }] }).1 =
      { Results := [{ TrackID := 1 }, { TrackID := 3 }] } :=
  (lookup_reconciliation_spec [1, 2, 3]
    { Results := [{ TrackID := 1 }, { TrackID := 3 }] } (by simp)).1

end ItunesClient

namespace ItunesClient

/-- Dropping while a predicate holds skips a fully-satisfying front
segment. -/
theorem dropWhile_append_all (p : Char → Bool) (l1 l2 : List Char)
    (h : ∀ c ∈ l1, p c = true) :
    (l1 ++ l2).dropWhile p = l2.dropWhile p := by
  induction l1 with
  | nil => simp
  | cons a t ih =>
    rw [List.cons_append, List.dropWhile_cons_of_pos (h a (by simp))]
    exact ih (fun c hc => h c (by simp [hc]))

/-- `dropWhile` is the identity when the head (if any) fails the
predicate. -/
theorem dropWhile_eq_self_of_head (p : Char → Bool) (l : List Char)
    (h : ∀ c, l.head? = some c → p c = false) : l.dropWhile p = l := by
  cases l with
  | nil => rfl
  | cons a t =>
    rw [List.dropWhile_cons_of_neg]
    simp [h a rfl]

/-- `strings.TrimSpace` removes exactly the added surrounding whitespace
when the wrapped core neither starts nor ends with a space character. -/
theorem goTrimSpace_wrap (ws1 ws2 core : List Char)
    (h1 : ∀ c ∈ ws1, goIsSpace c = true) (h2 : ∀ c ∈ ws2, goIsSpace c = true)
    (hne : core ≠ [])
    (hhead : ∀ c, core.head? = some c → goIsSpace c = false)
    (hlast : ∀ c, core.getLast? = some c → goIsSpace c = false) :
    goTrimSpace (ws1 ++ core ++ ws2) = core := by
  unfold goTrimSpace
  rw [List.append_assoc, dropWhile_append_all _ ws1 _ h1]
  rw [dropWhile_eq_self_of_head _ (core ++ ws2) (by
    intro c hc
    apply hhead
    cases core with
    | nil => exact absurd rfl hne
    | cons a t =>
      rw [List.head?_append] at hc
      simpa using hc)]
  rw [List.reverse_append]
  rw [dropWhile_append_all _ ws2.reverse _ (by
    intro c hc
    exact h2 c (List.mem_reverse.mp hc))]
  rw [dropWhile_eq_self_of_head _ core.reverse (by
    intro c hc
    rw [List.head?_reverse] at hc
    exact hlast c hc)]
  rw [List.reverse_reverse]

end ItunesClient

namespace ItunesClient

/-- `strings.TrimSuffix(_, ";")` on a body that ends with `)` followed by
an optional semicolon: exactly the semicolon is removed. -/
theorem goTrimSuffixSemi_wrap (x : List Char) (sem : List Char)
    (hsem : sem = [] ∨ sem = [';']) :
    goTrimSuffixSemi ((x ++ [')']) ++ sem) = x ++ [')'] := by
  rcases hsem with rfl | rfl
  · rw [List.append_nil, goTrimSuffixSemi, if_neg]
    rw [List.getLast?_concat]
    simp
  · rw [goTrimSuffixSemi, if_pos]
    · exact List.dropLast_concat
    · rw [List.getLast?_concat]

/-- C8: unwrapping `callback(payload)` with an optional trailing
semicolon and surrounding whitespace returns exactly the payload; any
body whose trimmed form fails the `callback(`..`)` envelope check is
rejected with the decode error; and the concrete
`cb({"results":[]});` round-trips to the empty-results JSON payload. -/
theorem jsonp_round_trip_spec (ws1 ws2 cb p sem body cb2 : List Char)
    (h1 : ∀ c ∈ ws1, goIsSpace c = true) (h2 : ∀ c ∈ ws2, goIsSpace c = true)
    (hcb : ∀ c, cb.head? = some c → goIsSpace c = false)
    (hsem : sem = [] ∨ sem = [';'])
    (hrej : ¬((cb2 ++ ['(']).isPrefixOf (goTrimSuffixSemi (goTrimSpace body)) = true ∧
        [')'].isSuffixOf (goTrimSuffixSemi (goTrimSpace body)) = true)) :
    unwrapJSONPBody (ws1 ++ (cb ++ ['('] ++ p ++ [')'] ++ sem) ++ ws2) cb = .ok p ∧
    unwrapJSONPBody body cb2 = .error "unexpected JSONP response format" ∧
    unwrapJSONPBody ("cb(\x7b\"results\":[]\x7d);".toList) ("cb".toList) =
      .ok ("\x7b\"results\":[]\x7d".toList) := by
  refine ⟨?_, ?_, ?_⟩
  · have hne : cb ++ ['('] ++ p ++ [')'] ++ sem ≠ [] := by
      rcases hsem with rfl | rfl <;> simp
    have hhead : ∀ c, (cb ++ ['('] ++ p ++ [')'] ++ sem).head? = some c →
        goIsSpace c = false := by
      intro c hc
      cases cb with
      | nil =>
        simp only [List.nil_append, List.cons_append, List.head?_cons] at hc
        obtain rfl := Option.some.inj hc
        decide
      | cons a t =>
        simp only [List.cons_append, List.head?_cons] at hc
        obtain rfl := Option.some.inj hc
        exact hcb _ rfl
    have hlast : ∀ c, (cb ++ ['('] ++ p ++ [')'] ++ sem).getLast? = some c →
        goIsSpace c = false := by
      intro c hc
      rcases hsem with rfl | rfl
      · rw [List.append_nil, List.getLast?_concat] at hc
        obtain rfl := Option.some.inj hc
        decide
      · rw [List.getLast?_concat] at hc
        obtain rfl := Option.some.inj hc
        decide
    have htrim : goTrimSpace (ws1 ++ (cb ++ ['('] ++ p ++ [')'] ++ sem) ++ ws2) =
        cb ++ ['('] ++ p ++ [')'] ++ sem :=
      goTrimSpace_wrap ws1 ws2 _ h1 h2 hne hhead hlast
    have hsuffix : goTrimSuffixSemi (cb ++ ['('] ++ p ++ [')'] ++ sem) =
        cb ++ ['('] ++ p ++ [')'] :=
      goTrimSuffixSemi_wrap (cb ++ ['('] ++ p) sem hsem
    simp only [unwrapJSONPBody, htrim, hsuffix]
    have hpre : (cb ++ ['(']).isPrefixOf (cb ++ ['('] ++ p ++ [')']) = true := by
      rw [List.isPrefixOf_iff_prefix, List.append_assoc (cb ++ ['(']) p [')']]
      exact List.prefix_append _ _
    have hsuf : [')'].isSuffixOf (cb ++ ['('] ++ p ++ [')']) = true := by
      rw [List.isSuffixOf_iff_suffix]
      exact List.suffix_append _ _
    rw [if_pos (by rw [hpre, hsuf]; rfl)]
    have hdrop : (cb ++ ['('] ++ p ++ [')']).drop (cb ++ ['(']).length =
        p ++ [')'] := by
      rw [List.append_assoc (cb ++ ['(']) p [')']]
      exact List.drop_left _ _
    rw [hdrop, List.dropLast_concat]
  · simp only [unwrapJSONPBody]
    rw [if_neg]
    rw [Bool.and_eq_true]
    exact hrej
  · rfl

/-- C8 witness: `" cb(x); "` unwrapped with callback `cb` gives `x`, at
concrete character lists. -/
theorem jsonp_round_trip_spec_witness :
    unwrapJSONPBody
        ([' '] ++ (['c', 'b'] ++ ['('] ++ ['x'] ++ [')'] ++ [';']) ++ [' '])
        ['c', 'b'] = .ok ['x'] :=
  (jsonp_round_trip_spec [' '] [' '] ['c', 'b'] ['x'] [';'] ['n'] []
    (by decide) (by decide) (by decide) (Or.inr rfl) (by decide)).1

end ItunesClient
